import Mathlib

/-! Shallow embedding of the Circles particle simulation (circles.py).

Bodies are circles with a 2-D position, a 2-D velocity, a radius and a
glued flag.  The engine mutates a Python list in place; here the list of
circles is threaded explicitly and in-place index assignment becomes
`List.set`.  `math.hypot` is `Real.sqrt (dx*dx + dy*dy)`.  Real division
follows Lean's total convention `x / 0 = 0`; the Python-faithful raising
division is modelled separately (`pythonDiv`) for the reachability claim
about division by zero.
-/

namespace Circles

/-- One circular body: `Circle.__init__` in circles.py.  The two-element
Python lists for position and velocity become pairs. -/
structure Circle where
  position : ℝ × ℝ
  velocity : ℝ × ℝ
  radius : ℝ
  glued : Bool

/-- Default circle used for out-of-range list reads (never hit in the
theorems, which carry index bounds). -/
def cdef : Circle := ⟨(0, 0), (0, 0), 0, false⟩

/-- Indexing `circles[i]` (reads in the engine are always in range). -/
def nth (cs : List Circle) (i : ℕ) : Circle := cs.getD i cdef

/-- Model of `math.hypot dx dy`. -/
noncomputable def hypot (dx dy : ℝ) : ℝ := Real.sqrt (dx * dx + dy * dy)

/-- Method `Circle.distance` from circles.py, verbatim: both arguments of
`math.hypot` are the x-difference (the y-coordinates are never read). -/
noncomputable def Circle.distance (self other : Circle) : ℝ :=
  hypot (self.position.1 - other.position.1) (self.position.1 - other.position.1)

/-- The true Euclidean distance the spec describes (comparison point for
the `Circle.distance` defect claim); follows the spec's words. -/
noncomputable def spec_euclidean_distance (a b : Circle) : ℝ :=
  hypot (a.position.1 - b.position.1) (a.position.2 - b.position.2)

/-- The indices `range(i + 1, n)` of the inner pair loop. -/
def innerJs (i n : ℕ) : List ℕ := List.range' (i + 1) (n - (i + 1))

/-- Body of the inner loop of `gravitate_glue` for one pair `(i, j)`:
compute displacement and distance; on overlap set both glued flags and
skip the force, otherwise apply the inverse-square force to both
velocities (subtract on `i`, add on `j`). -/
noncomputable def gravitate_pair (g : ℝ) (s : List Circle) (i j : ℕ) : List Circle :=
  let ci := nth s i
  let cj := nth s j
  let dx := ci.position.1 - cj.position.1
  let dy := ci.position.2 - cj.position.2
  let d := hypot dx dy
  if d < ci.radius + cj.radius then
    (s.set i { ci with glued := true }).set j { cj with glued := true }
  else
    let force := g / d / d
    (s.set i { ci with velocity :=
        (ci.velocity.1 - force * dx / d, ci.velocity.2 - force * dy / d) }).set j
      { cj with velocity :=
        (cj.velocity.1 + force * dx / d, cj.velocity.2 + force * dy / d) }

/-- One iteration of the outer loop of `gravitate_glue`: integrate body
`i`'s position unless it is glued under non-negative gravity, then run
the inner pair loop over `j = i+1 .. n-1`. -/
noncomputable def gravitate_body (g : ℝ) (s : List Circle) (i : ℕ) : List Circle :=
  let s1 :=
    if g < 0 ∨ (nth s i).glued = false then
      s.set i { nth s i with position :=
        ((nth s i).position.1 + (nth s i).velocity.1,
         (nth s i).position.2 + (nth s i).velocity.2) }
    else s
  (innerJs i s1.length).foldl (fun t j => gravitate_pair g t i j) s1

/-- Operation `gravitate_glue(circles, g_constant)`: the full per-tick step. -/
noncomputable def gravitate_glue (cs : List Circle) (g : ℝ) : List Circle :=
  (List.range cs.length).foldl (gravitate_body g) cs

/-! Helper lemmas about `nth` and `List.set`. -/

theorem nth_set_ne (s : List Circle) (i j : ℕ) (c : Circle) (h : i ≠ j) :
    nth (s.set i c) j = nth s j := by
  simp [nth, List.getD_eq_getElem?_getD, List.getElem?_set_ne h]

theorem nth_set_self (s : List Circle) (i : ℕ) (c : Circle) (h : i < s.length) :
    nth (s.set i c) i = c := by
  simp [nth, List.getD_eq_getElem?_getD, List.getElem?_set_self h]

@[simp] theorem nth_zero (a : Circle) (l : List Circle) : nth (a :: l) 0 = a := rfl

@[simp] theorem nth_succ (a : Circle) (l : List Circle) (n : ℕ) :
    nth (a :: l) (n + 1) = nth l n := rfl

@[simp] theorem nth_nil (n : ℕ) : nth ([] : List Circle) n = cdef := by
  cases n <;> rfl

/-- Writing a record that agrees with the overwritten entry on a field `φ`
leaves `φ` of every entry unchanged. -/
theorem nth_set1_pres {γ : Type} (φ : Circle → γ) (s : List Circle) (i m : ℕ)
    (A : Circle) (hA : φ A = φ (nth s i)) :
    φ (nth (s.set i A) m) = φ (nth s m) := by
  by_cases him : i = m
  · subst him
    by_cases hlen : i < s.length
    · rw [nth_set_self s i A hlen, hA]
    · rw [List.set_eq_of_length_le (le_of_not_lt hlen)]
  · rw [nth_set_ne s i m A him]

/-- Two successive writes that agree with the overwritten entries on a
field `φ` leave `φ` of every entry unchanged. -/
theorem nth_set2_pres {γ : Type} (φ : Circle → γ) (s : List Circle) (i j m : ℕ)
    (A B : Circle) (hA : φ A = φ (nth s i)) (hB : φ B = φ (nth s j)) :
    φ (nth ((s.set i A).set j B) m) = φ (nth s m) := by
  by_cases hjm : j = m
  · subst hjm
    by_cases hlen : j < (s.set i A).length
    · rw [nth_set_self _ j B hlen, hB]
    · rw [List.set_eq_of_length_le (le_of_not_lt hlen)]
      exact nth_set1_pres φ s i j A hA
  · rw [nth_set_ne _ j m B hjm]
    exact nth_set1_pres φ s i m A hA

/-- A write whose glued field is true, or copied from the overwritten
entry, preserves glued-ness of every entry. -/
theorem nth_set1_glue (s : List Circle) (i m : ℕ) (A : Circle)
    (hA : A.glued = true ∨ A.glued = (nth s i).glued) (hm : (nth s m).glued = true) :
    (nth (s.set i A) m).glued = true := by
  by_cases him : i = m
  · subst him
    by_cases hlen : i < s.length
    · rw [nth_set_self s i A hlen]
      rcases hA with h | h
      · exact h
      · rw [h]; exact hm
    · rwa [List.set_eq_of_length_le (le_of_not_lt hlen)]
  · rwa [nth_set_ne s i m A him]

/-- Two such writes preserve glued-ness of every entry. -/
theorem nth_set2_glue (s : List Circle) (i j m : ℕ) (A B : Circle)
    (hA : A.glued = true ∨ A.glued = (nth s i).glued)
    (hB : B.glued = true ∨ B.glued = (nth s j).glued)
    (hm : (nth s m).glued = true) :
    (nth ((s.set i A).set j B) m).glued = true := by
  by_cases hjm : j = m
  · subst hjm
    by_cases hlen : j < (s.set i A).length
    · rw [nth_set_self _ j B hlen]
      rcases hB with h | h
      · exact h
      · rw [h]; exact hm
    · rw [List.set_eq_of_length_le (le_of_not_lt hlen)]
      exact nth_set1_glue s i j A hA hm
  · rw [nth_set_ne _ j m B hjm]
    exact nth_set1_glue s i m A hA hm

/-- Invariants are preserved by `List.foldl`. -/
theorem foldl_inv {α β : Type} {P : β → Prop} {f : β → α → β} :
    ∀ (l : List α), (∀ s a, a ∈ l → P s → P (f s a)) → ∀ s, P s → P (l.foldl f s)
  | [], _, _, hs => hs
  | a :: l, h, s, hs =>
    foldl_inv l (fun t b hb ht => h t b (List.mem_cons_of_mem a hb) ht) (f s a)
      (h s a (List.mem_cons_self a l) hs)

/-! Preservation facts for `gravitate_pair` and `gravitate_body`. -/

theorem gravitate_pair_length (g : ℝ) (s : List Circle) (i j : ℕ) :
    (gravitate_pair g s i j).length = s.length := by
  simp only [gravitate_pair]
  split <;> simp [List.length_set]

theorem gravitate_pair_position (g : ℝ) (s : List Circle) (i j m : ℕ) :
    (nth (gravitate_pair g s i j) m).position = (nth s m).position := by
  simp only [gravitate_pair]
  split
  · exact nth_set2_pres Circle.position s i j m _ _ rfl rfl
  · exact nth_set2_pres Circle.position s i j m _ _ rfl rfl

theorem gravitate_pair_radius (g : ℝ) (s : List Circle) (i j m : ℕ) :
    (nth (gravitate_pair g s i j) m).radius = (nth s m).radius := by
  simp only [gravitate_pair]
  split
  · exact nth_set2_pres Circle.radius s i j m _ _ rfl rfl
  · exact nth_set2_pres Circle.radius s i j m _ _ rfl rfl

theorem gravitate_pair_glued (g : ℝ) (s : List Circle) (i j m : ℕ)
    (hm : (nth s m).glued = true) :
    (nth (gravitate_pair g s i j) m).glued = true := by
  simp only [gravitate_pair]
  split
  · exact nth_set2_glue s i j m _ _ (Or.inl rfl) (Or.inl rfl) hm
  · exact nth_set2_glue s i j m _ _ (Or.inr rfl) (Or.inr rfl) hm

theorem gravitate_body_length (g : ℝ) (s : List Circle) (i : ℕ) :
    (gravitate_body g s i).length = s.length := by
  simp only [gravitate_body]
  refine foldl_inv (P := fun t : List Circle => t.length = s.length) _
    (fun t j _ ht => ?_) _ ?_
  · show (gravitate_pair g t i j).length = s.length
    rw [gravitate_pair_length, ht]
  · split <;> simp [List.length_set]

/-- During a step with non-negative gravity a glued body keeps its glued
flag and its position through one outer-loop iteration. -/
theorem gravitate_body_keeps (g : ℝ) (s : List Circle) (i k : ℕ) (p : ℝ × ℝ)
    (hg : ¬ g < 0) (h : (nth s k).glued = true ∧ (nth s k).position = p) :
    (nth (gravitate_body g s i) k).glued = true ∧
      (nth (gravitate_body g s i) k).position = p := by
  simp only [gravitate_body]
  have step : ∀ (t : List Circle) (j : ℕ),
      (nth t k).glued = true ∧ (nth t k).position = p →
      (nth (gravitate_pair g t i j) k).glued = true ∧
        (nth (gravitate_pair g t i j) k).position = p := by
    intro t j ht
    exact ⟨gravitate_pair_glued g t i j k ht.1, by rw [gravitate_pair_position]; exact ht.2⟩
  refine foldl_inv (P := fun t : List Circle =>
      (nth t k).glued = true ∧ (nth t k).position = p) _
    (fun t j _ ht => step t j ht) _ ?_
  split
  case isTrue hcond =>
    by_cases hik : i = k
    · subst hik
      rcases hcond with hneg | hfl
      · exact absurd hneg hg
      · rw [h.1] at hfl; cases hfl
    · exact ⟨by rw [nth_set_ne s i k _ hik]; exact h.1,
        by rw [nth_set_ne s i k _ hik]; exact h.2⟩
  case isFalse => exact h

/-- A true glued flag survives one outer-loop iteration, for any gravity. -/
theorem gravitate_body_glued (g : ℝ) (s : List Circle) (i k : ℕ)
    (h : (nth s k).glued = true) : (nth (gravitate_body g s i) k).glued = true := by
  simp only [gravitate_body]
  refine foldl_inv (P := fun t : List Circle => (nth t k).glued = true) _
    (fun t j _ ht => gravitate_pair_glued g t i j k ht) _ ?_
  split
  · exact nth_set1_glue s i k _ (Or.inr rfl) h
  · exact h

/-- A true glued flag survives a whole `gravitate_glue` call. -/
theorem gravitate_glue_glued (t : List Circle) (g : ℝ) (m : ℕ)
    (h : (nth t m).glued = true) : (nth (gravitate_glue t g) m).glued = true := by
  simp only [gravitate_glue]
  exact foldl_inv (P := fun u : List Circle => (nth u m).glued = true) _
    (fun u i _ hu => gravitate_body_glued g u i m hu) _ h

/-- With non-negative gravity a glued body keeps flag and position through
a whole `gravitate_glue` call. -/
theorem gravitate_glue_keeps (cs : List Circle) (g : ℝ) (k : ℕ)
    (hg : ¬ g < 0) (h : (nth cs k).glued = true) :
    (nth (gravitate_glue cs g) k).glued = true ∧
      (nth (gravitate_glue cs g) k).position = (nth cs k).position := by
  simp only [gravitate_glue]
  exact foldl_inv (P := fun t : List Circle =>
      (nth t k).glued = true ∧ (nth t k).position = (nth cs k).position) _
    (fun t i _ ht => gravitate_body_keeps g t i k _ hg ht) _ ⟨h, rfl⟩

/-- Iterate `n` consecutive `step` calls (`gravitate_glue` once per tick). -/
noncomputable def stepN (g : ℝ) : ℕ → List Circle → List Circle
  | 0, cs => cs
  | n + 1, cs => stepN g n (gravitate_glue cs g)

/-- Operation `unglue(circles)`: clear the glued flag and reset velocity on every
glued circle; untouched circles keep their velocity. -/
def unglue (cs : List Circle) : List Circle :=
  cs.map (fun c => if c.glued then { c with glued := false, velocity := (0, 0) } else c)

/-- Evaluate `hypot` on a concrete Pythagorean input. -/
theorem hypot_val (dx dy r : ℝ) (hr : 0 ≤ r) (h : dx * dx + dy * dy = r * r) :
    hypot dx dy = r := by
  unfold hypot
  rw [h]
  exact Real.sqrt_mul_self hr

/-! Concrete circles used by the witnesses: pairs at `(0,0)` and `(3,4)`
(distance 5) with various radii and glued flags. -/

noncomputable def cA : Circle := ⟨(0, 0), (0, 0), 1, false⟩
noncomputable def cB : Circle := ⟨(3, 4), (0, 0), 1, false⟩
noncomputable def cAg : Circle := ⟨(0, 0), (0, 0), 1, true⟩
noncomputable def cBg : Circle := ⟨(3, 4), (0, 0), 1, true⟩
noncomputable def cBig1 : Circle := ⟨(0, 0), (0, 0), 3, false⟩
noncomputable def cBig2 : Circle := ⟨(3, 4), (0, 0), 3, false⟩
noncomputable def cHalf1 : Circle := ⟨(0, 0), (0, 0), 5 / 2, false⟩
noncomputable def cHalf2 : Circle := ⟨(3, 4), (0, 0), 5 / 2, false⟩

/-- C2: glue monotonicity — once a body is glued and the gravitational
constant is positive, its position is unchanged (and it stays glued)
under any number of subsequent `step` (`gravitate_glue`) calls with no
`unglue`/`breakApart` in between. -/
theorem glued_position_stable (cs : List Circle) (g : ℝ) (k n : ℕ)
    (hg : 0 < g) (hk : (nth cs k).glued = true) :
    (nth (stepN g n cs) k).position = (nth cs k).position ∧
      (nth (stepN g n cs) k).glued = true := by
  induction n generalizing cs with
  | zero => exact ⟨rfl, hk⟩
  | succ n ih =>
      have h1 := gravitate_glue_keeps cs g k (asymm hg) hk
      have h2 := ih (gravitate_glue cs g) h1.1
      simp only [stepN]
      exact ⟨h2.1.trans h1.2, h2.2⟩

/-- Witness for C2: a glued body at `(0,0)` under gravity `1` sits still
for five ticks next to an unglued neighbour. -/
theorem glued_position_stable_witness :
    (0 : ℝ) < 1 ∧ (nth [cAg, cB] 0).glued = true ∧
      (nth (stepN 1 5 [cAg, cB]) 0).position = (nth [cAg, cB] 0).position :=
  ⟨by norm_num, rfl, (glued_position_stable [cAg, cB] 1 0 5 (by norm_num) rfl).1⟩

/-- C3: collision threshold — when the pair `(i, j)` is processed inside a
`step`, a center distance strictly below the radius sum sets both glued
flags and applies no velocity update from that pair; a distance exactly
equal to the radius sum glues nothing from that pair; and a glued flag set
during the step survives to the end of the `gravitate_glue` call. -/
theorem collision_threshold (g : ℝ) (s : List Circle) (i j : ℕ)
    (hi : i < s.length) (hj : j < s.length) (hij : i ≠ j) :
    (hypot ((nth s i).position.1 - (nth s j).position.1)
        ((nth s i).position.2 - (nth s j).position.2)
        < (nth s i).radius + (nth s j).radius →
      (nth (gravitate_pair g s i j) i).glued = true ∧
      (nth (gravitate_pair g s i j) j).glued = true ∧
      ∀ m, (nth (gravitate_pair g s i j) m).velocity = (nth s m).velocity) ∧
    (hypot ((nth s i).position.1 - (nth s j).position.1)
        ((nth s i).position.2 - (nth s j).position.2)
        = (nth s i).radius + (nth s j).radius →
      ∀ m, (nth (gravitate_pair g s i j) m).glued = (nth s m).glued) ∧
    (∀ (t : List Circle) (m : ℕ), (nth t m).glued = true →
      (nth (gravitate_glue t g) m).glued = true) := by
  refine ⟨fun hlt => ?_, fun heq => ?_, gravitate_glue_glued (g := g)⟩
  · simp only [gravitate_pair]
    rw [if_pos hlt]
    refine ⟨?_, ?_, fun m => nth_set2_pres Circle.velocity s i j m _ _ rfl rfl⟩
    · rw [nth_set_ne _ j i _ (Ne.symm hij), nth_set_self s i _ hi]
    · rw [nth_set_self _ j _ (by rw [List.length_set]; exact hj)]
  · simp only [gravitate_pair]
    rw [if_neg (by rw [heq]; exact lt_irrefl _)]
    intro m
    exact nth_set2_pres Circle.glued s i j m _ _ rfl rfl

/-- Witness for C3: radii `3` at distance `5` glue (both flags set, no
velocity change), radii `5/2` at distance `5` do not glue. -/
theorem collision_threshold_witness :
    hypot ((nth [cBig1, cBig2] 0).position.1 - (nth [cBig1, cBig2] 1).position.1)
        ((nth [cBig1, cBig2] 0).position.2 - (nth [cBig1, cBig2] 1).position.2)
      < (nth [cBig1, cBig2] 0).radius + (nth [cBig1, cBig2] 1).radius ∧
    (nth (gravitate_pair 1 [cBig1, cBig2] 0 1) 0).glued = true ∧
    (nth (gravitate_pair 1 [cBig1, cBig2] 0 1) 1).glued = true ∧
    (nth (gravitate_pair 1 [cBig1, cBig2] 0 1) 0).velocity = (nth [cBig1, cBig2] 0).velocity ∧
    hypot ((nth [cHalf1, cHalf2] 0).position.1 - (nth [cHalf1, cHalf2] 1).position.1)
        ((nth [cHalf1, cHalf2] 0).position.2 - (nth [cHalf1, cHalf2] 1).position.2)
      = (nth [cHalf1, cHalf2] 0).radius + (nth [cHalf1, cHalf2] 1).radius ∧
    (nth (gravitate_pair 1 [cHalf1, cHalf2] 0 1) 0).glued = (nth [cHalf1, cHalf2] 0).glued := by
  have hlt : hypot ((nth [cBig1, cBig2] 0).position.1 - (nth [cBig1, cBig2] 1).position.1)
      ((nth [cBig1, cBig2] 0).position.2 - (nth [cBig1, cBig2] 1).position.2)
      < (nth [cBig1, cBig2] 0).radius + (nth [cBig1, cBig2] 1).radius := by
    show hypot ((0 : ℝ) - 3) ((0 : ℝ) - 4) < (3 : ℝ) + 3
    rw [hypot_val (0 - 3) (0 - 4) 5 (by norm_num) (by norm_num)]
    norm_num
  have heq : hypot ((nth [cHalf1, cHalf2] 0).position.1 - (nth [cHalf1, cHalf2] 1).position.1)
      ((nth [cHalf1, cHalf2] 0).position.2 - (nth [cHalf1, cHalf2] 1).position.2)
      = (nth [cHalf1, cHalf2] 0).radius + (nth [cHalf1, cHalf2] 1).radius := by
    show hypot ((0 : ℝ) - 3) ((0 : ℝ) - 4) = (5 : ℝ) / 2 + 5 / 2
    rw [hypot_val (0 - 3) (0 - 4) 5 (by norm_num) (by norm_num)]
    norm_num
  have h1 := (collision_threshold 1 [cBig1, cBig2] 0 1 (by norm_num) (by norm_num)
    (by norm_num)).1 hlt
  have h2 := ((collision_threshold 1 [cHalf1, cHalf2] 0 1 (by norm_num) (by norm_num)
    (by norm_num)).2.1 heq) 0
  exact ⟨hlt, h1.1, h1.2.1, h1.2.2 0, heq, h2⟩

/-- C4: symmetry of force — for a non-colliding pair the velocity delta of
body `i` is the exact negation of the velocity delta of body `j`, in both
components. -/
theorem gravitate_pair_equal_opposite (g : ℝ) (s : List Circle) (i j : ℕ)
    (hi : i < s.length) (hj : j < s.length) (hij : i ≠ j)
    (hnc : ¬ hypot ((nth s i).position.1 - (nth s j).position.1)
        ((nth s i).position.2 - (nth s j).position.2)
        < (nth s i).radius + (nth s j).radius) :
    (nth (gravitate_pair g s i j) i).velocity.1 - (nth s i).velocity.1
      = -((nth (gravitate_pair g s i j) j).velocity.1 - (nth s j).velocity.1) ∧
    (nth (gravitate_pair g s i j) i).velocity.2 - (nth s i).velocity.2
      = -((nth (gravitate_pair g s i j) j).velocity.2 - (nth s j).velocity.2) := by
  simp only [gravitate_pair]
  rw [if_neg hnc]
  rw [nth_set_ne _ j i _ (Ne.symm hij), nth_set_self s i _ hi,
    nth_set_self _ j _ (by rw [List.length_set]; exact hj)]
  constructor <;> dsimp <;> ring

/-- Witness for C4 at radii `1`, distance `5`. -/
theorem gravitate_pair_equal_opposite_witness :
    ¬ hypot ((nth [cA, cB] 0).position.1 - (nth [cA, cB] 1).position.1)
        ((nth [cA, cB] 0).position.2 - (nth [cA, cB] 1).position.2)
      < (nth [cA, cB] 0).radius + (nth [cA, cB] 1).radius ∧
    (nth (gravitate_pair 1 [cA, cB] 0 1) 0).velocity.1 - (nth [cA, cB] 0).velocity.1
      = -((nth (gravitate_pair 1 [cA, cB] 0 1) 1).velocity.1 - (nth [cA, cB] 1).velocity.1) := by
  have hnc : ¬ hypot ((nth [cA, cB] 0).position.1 - (nth [cA, cB] 1).position.1)
      ((nth [cA, cB] 0).position.2 - (nth [cA, cB] 1).position.2)
      < (nth [cA, cB] 0).radius + (nth [cA, cB] 1).radius := by
    show ¬ hypot ((0 : ℝ) - 3) ((0 : ℝ) - 4) < (1 : ℝ) + 1
    rw [hypot_val (0 - 3) (0 - 4) 5 (by norm_num) (by norm_num)]
    norm_num
  exact ⟨hnc, (gravitate_pair_equal_opposite 1 [cA, cB] 0 1 (by norm_num) (by norm_num)
    (by norm_num) hnc).1⟩

/-- C7: unglue idempotence — calling `unglue` twice equals calling it
once; afterwards every glued flag is false; and on an already-unglued
collection `unglue` changes nothing. -/
theorem unglue_idempotent (cs : List Circle) :
    unglue (unglue cs) = unglue cs ∧
    (∀ c ∈ unglue cs, c.glued = false) ∧
    ((∀ c ∈ cs, c.glued = false) → unglue cs = cs) := by
  refine ⟨?_, ?_, ?_⟩
  · simp only [unglue, List.map_map]
    refine List.map_congr_left fun c _ => ?_
    cases hc : c.glued <;> simp [hc]
  · intro c hc
    rw [unglue, List.mem_map] at hc
    obtain ⟨a, -, rfl⟩ := hc
    cases ha : a.glued <;> simp [ha]
  · intro h
    have : cs.map (fun c => if c.glued then
        { c with glued := false, velocity := (0, 0) } else c) = cs.map id :=
      List.map_congr_left fun c hc => by simp [h c hc]
    rw [unglue, this, List.map_id]

/-- Witness for C7 on a mixed glued/unglued pair, and the no-op case. -/
theorem unglue_idempotent_witness :
    unglue (unglue [cAg, cB]) = unglue [cAg, cB] ∧ unglue [cA, cB] = [cA, cB] := by
  refine ⟨(unglue_idempotent [cAg, cB]).1, (unglue_idempotent [cA, cB]).2.2 ?_⟩
  intro c hc
  simp only [List.mem_cons, List.not_mem_nil, or_false] at hc
  rcases hc with rfl | rfl <;> rfl

/-- A `hypot` of a nonzero displacement is positive. -/
theorem hypot_pos (dx dy : ℝ) (h : dx ≠ 0 ∨ dy ≠ 0) : 0 < hypot dx dy := by
  unfold hypot
  apply Real.sqrt_pos.mpr
  rcases h with h | h
  · have := mul_self_pos.mpr h
    nlinarith [mul_self_nonneg dy]
  · have := mul_self_pos.mpr h
    nlinarith [mul_self_nonneg dx]

/-- C9: the `Circle.distance` helper reads only the x-coordinates: it
returns `√2 · |Δx|`, and on bodies with equal x but different y it
disagrees with the true Euclidean distance. -/
theorem distance_uses_x_only (a b : Circle) :
    a.distance b = Real.sqrt 2 * |a.position.1 - b.position.1| ∧
    (a.position.1 = b.position.1 → a.position.2 ≠ b.position.2 →
      a.distance b ≠ spec_euclidean_distance a b) := by
  have habs : ∀ x : ℝ, hypot x x = Real.sqrt 2 * |x| := by
    intro x
    unfold hypot
    rw [show x * x + x * x = 2 * x ^ 2 by ring, Real.sqrt_mul (by norm_num) (x ^ 2),
      Real.sqrt_sq_eq_abs]
  constructor
  · exact habs _
  · intro hx hy
    unfold Circle.distance spec_euclidean_distance
    rw [hx, sub_self, habs 0]
    have h2 : hypot 0 (a.position.2 - b.position.2) = |a.position.2 - b.position.2| := by
      unfold hypot
      rw [zero_mul, zero_add, Real.sqrt_mul_self_eq_abs]
    rw [h2]
    simp only [abs_zero, mul_zero]
    exact fun h => (abs_ne_zero.mpr (sub_ne_zero_of_ne hy)) h.symm

/-- Witness for C9: bodies at `(2,5)` and `(2,9)`. -/
theorem distance_uses_x_only_witness :
    (⟨(2, 5), (0, 0), 1, false⟩ : Circle).position.1
        = (⟨(2, 9), (0, 0), 1, false⟩ : Circle).position.1 ∧
    (⟨(2, 5), (0, 0), 1, false⟩ : Circle).position.2
        ≠ (⟨(2, 9), (0, 0), 1, false⟩ : Circle).position.2 ∧
    Circle.distance ⟨(2, 5), (0, 0), 1, false⟩ ⟨(2, 9), (0, 0), 1, false⟩
        ≠ spec_euclidean_distance ⟨(2, 5), (0, 0), 1, false⟩ ⟨(2, 9), (0, 0), 1, false⟩ :=
  ⟨rfl, by norm_num,
    (distance_uses_x_only ⟨(2, 5), (0, 0), 1, false⟩ ⟨(2, 9), (0, 0), 1, false⟩).2
      rfl (by norm_num)⟩

/-- Generator `create_center_star(x_bound, y_bound, center_radius, outer_radius,
sides)`: one centre circle plus `sides` circles on a ring of radius
`center_radius + outer_radius`, placed with sine for x and cosine for y. -/
noncomputable def create_center_star (xb yb cr outr : ℝ) (sides : ℕ) : List Circle :=
  { position := (xb / 2, yb / 2), velocity := (0, 0), radius := cr, glued := false } ::
    (List.range sides).map fun (i : ℕ) =>
      { position := (xb / 2 + Real.sin ((i : ℝ) * 2 * Real.pi / (sides : ℝ)) * (cr + outr),
                     yb / 2 + Real.cos ((i : ℝ) * 2 * Real.pi / (sides : ℝ)) * (cr + outr)),
        velocity := (0, 0), radius := outr, glued := false }

theorem nth_map_range (f : ℕ → Circle) (n k : ℕ) (h : k < n) :
    nth ((List.range n).map f) k = f k := by
  simp [nth, List.getD_eq_getElem?_getD, List.getElem?_map, List.getElem?_range h]

/-- C8: `createCenterStar(500, 400, 13, 7, 5)` returns six bodies: the
centre at `(250, 200)` with radius 13, and five radius-7 bodies at angle
`k·2π/5` and distance `20` from the centre, matching the closed-form
sine/cosine placement. -/
theorem create_center_star_spec :
    (create_center_star 500 400 13 7 5).length = 6 ∧
    nth (create_center_star 500 400 13 7 5) 0 =
      { position := (250, 200), velocity := (0, 0), radius := 13, glued := false } ∧
    ∀ k, k < 5 →
      nth (create_center_star 500 400 13 7 5) (k + 1) =
        { position := (250 + Real.sin ((k : ℝ) * 2 * Real.pi / 5) * 20,
                       200 + Real.cos ((k : ℝ) * 2 * Real.pi / 5) * 20),
          velocity := (0, 0), radius := 7, glued := false } ∧
      hypot (250 - (250 + Real.sin ((k : ℝ) * 2 * Real.pi / 5) * 20))
          (200 - (200 + Real.cos ((k : ℝ) * 2 * Real.pi / 5) * 20)) = 20 := by
  refine ⟨?_, ?_, fun k hk => ⟨?_, ?_⟩⟩
  · simp only [create_center_star, List.length_cons, List.length_map, List.length_range]
  · show (⟨((500 : ℝ) / 2, (400 : ℝ) / 2), (0, 0), 13, false⟩ : Circle) = _
    norm_num [Circle.mk.injEq, Prod.mk.injEq]
  · unfold create_center_star
    rw [nth_succ, nth_map_range _ 5 k hk]
    norm_num [Circle.mk.injEq, Prod.mk.injEq]
  · apply hypot_val _ _ 20 (by norm_num)
    have h := Real.sin_sq_add_cos_sq ((k : ℝ) * 2 * Real.pi / 5)
    linear_combination 400 * h

/-- Witness for C8 at `k = 2`. -/
theorem create_center_star_spec_witness :
    2 < 5 ∧
    nth (create_center_star 500 400 13 7 5) 3 =
      { position := (250 + Real.sin ((2 : ℝ) * 2 * Real.pi / 5) * 20,
                     200 + Real.cos ((2 : ℝ) * 2 * Real.pi / 5) * 20),
        velocity := (0, 0), radius := 7, glued := false } ∧
    hypot (250 - (250 + Real.sin ((2 : ℝ) * 2 * Real.pi / 5) * 20))
        (200 - (200 + Real.cos ((2 : ℝ) * 2 * Real.pi / 5) * 20)) = 20 := by
  have h := create_center_star_spec.2.2 2 (by norm_num)
  exact ⟨by norm_num, by simpa using h.1, by simpa using h.2⟩

/-- C10: a glued body under positive gravity still receives the force
contribution of a non-colliding pair: its position is frozen but its
velocity changes in the same `step`. -/
theorem glued_velocity_updates (g : ℝ) (a b : Circle)
    (hg : 0 < g) (ha : a.glued = true) (hpos : a.position ≠ b.position)
    (hnc : ¬ hypot (a.position.1 - b.position.1) (a.position.2 - b.position.2)
        < a.radius + b.radius) :
    (nth (gravitate_glue [a, b] g) 0).position = a.position ∧
    (nth (gravitate_glue [a, b] g) 0).velocity ≠ a.velocity := by
  have hg' : ¬ g < 0 := asymm hg
  have e1 : gravitate_glue [a, b] g = gravitate_body g (gravitate_body g [a, b] 0) 1 := by
    rw [gravitate_glue, show ([a, b] : List Circle).length = 2 from rfl,
      show List.range 2 = [0, 1] from rfl]
    simp [List.foldl]
  have e2 : gravitate_body g [a, b] 0 = gravitate_pair g [a, b] 0 1 := by
    simp only [gravitate_body]
    rw [if_neg (by simp [ha, hg'])]
    rw [show innerJs 0 ([a, b] : List Circle).length = [1] from rfl]
    simp [List.foldl]
  have e4 : ∀ s : List Circle, s.length = 2 → nth (gravitate_body g s 1) 0 = nth s 0 := by
    intro s hs
    simp only [gravitate_body]
    have hlen : (if g < 0 ∨ (nth s 1).glued = false then
        s.set 1 { nth s 1 with position :=
          ((nth s 1).position.1 + (nth s 1).velocity.1,
           (nth s 1).position.2 + (nth s 1).velocity.2) } else s).length = 2 := by
      split <;> simp [List.length_set, hs]
    rw [hlen, show innerJs 1 2 = [] from rfl]
    rw [List.foldl_nil]
    split
    · rw [nth_set_ne s 1 0 _ (by decide)]
    · rfl
  have key : nth (gravitate_glue [a, b] g) 0 = nth (gravitate_pair g [a, b] 0 1) 0 := by
    rw [e1, e2, e4 _ (by rw [gravitate_pair_length]; rfl)]
  have e5 : nth (gravitate_pair g [a, b] 0 1) 0 =
      { a with velocity :=
        (a.velocity.1 - (g / hypot (a.position.1 - b.position.1)
            (a.position.2 - b.position.2) / hypot (a.position.1 - b.position.1)
            (a.position.2 - b.position.2)) * (a.position.1 - b.position.1) /
            hypot (a.position.1 - b.position.1) (a.position.2 - b.position.2),
         a.velocity.2 - (g / hypot (a.position.1 - b.position.1)
            (a.position.2 - b.position.2) / hypot (a.position.1 - b.position.1)
            (a.position.2 - b.position.2)) * (a.position.2 - b.position.2) /
            hypot (a.position.1 - b.position.1) (a.position.2 - b.position.2)) } := by
    simp only [gravitate_pair, nth_zero, nth_succ]
    rw [if_neg hnc]
    rfl
  rw [key, e5]
  refine ⟨rfl, fun h => ?_⟩
  have hxy : a.position.1 - b.position.1 ≠ 0 ∨ a.position.2 - b.position.2 ≠ 0 := by
    by_contra hcon
    push_neg at hcon
    exact hpos (Prod.ext (sub_eq_zero.mp hcon.1) (sub_eq_zero.mp hcon.2))
  have hd : 0 < hypot (a.position.1 - b.position.1) (a.position.2 - b.position.2) :=
    hypot_pos _ _ hxy
  have hdne := ne_of_gt hd
  have hfne : g / hypot (a.position.1 - b.position.1) (a.position.2 - b.position.2) /
      hypot (a.position.1 - b.position.1) (a.position.2 - b.position.2) ≠ 0 :=
    div_ne_zero (div_ne_zero (ne_of_gt hg) hdne) hdne
  have h1 := congrArg Prod.fst h
  have h2 := congrArg Prod.snd h
  simp only at h1 h2
  have hx0 : a.position.1 - b.position.1 = 0 := by
    have := sub_eq_self.mp h1
    rcases mul_eq_zero.mp ((div_eq_zero_iff.mp this).resolve_right hdne) with h' | h'
    · exact absurd h' hfne
    · exact h'
  have hy0 : a.position.2 - b.position.2 = 0 := by
    have := sub_eq_self.mp h2
    rcases mul_eq_zero.mp ((div_eq_zero_iff.mp this).resolve_right hdne) with h' | h'
    · exact absurd h' hfne
    · exact h'
  rcases hxy with h' | h'
  · exact h' hx0
  · exact h' hy0

/-- Witness for C10: glued body at the origin next to `(3,4)`, gravity 1. -/
theorem glued_velocity_updates_witness :
    (0 : ℝ) < 1 ∧ cAg.glued = true ∧ cAg.position ≠ cB.position ∧
    (nth (gravitate_glue [cAg, cB] 1) 0).position = cAg.position ∧
    (nth (gravitate_glue [cAg, cB] 1) 0).velocity ≠ cAg.velocity := by
  have hpos : cAg.position ≠ cB.position := by
    intro h
    have := congrArg Prod.fst h
    simp [cAg, cB] at this
  have hnc : ¬ hypot (cAg.position.1 - cB.position.1) (cAg.position.2 - cB.position.2)
      < cAg.radius + cB.radius := by
    show ¬ hypot ((0 : ℝ) - 3) ((0 : ℝ) - 4) < (1 : ℝ) + 1
    rw [hypot_val (0 - 3) (0 - 4) 5 (by norm_num) (by norm_num)]
    norm_num
  have h := glued_velocity_updates 1 cAg cB (by norm_num) rfl hpos hnc
  exact ⟨by norm_num, rfl, hpos, h.1, h.2⟩

/-! Python-faithful division (raises on a zero divisor).

The total model above uses Lean's `x / 0 = 0`.  Python's `/` raises
`ZeroDivisionError`; `pythonDiv` makes that explicit, and the checked
variant of `gravitate_glue` threads it through `Except`. -/

/-- Python `/` on floats: an error on a zero divisor. -/
noncomputable def pythonDiv (a b : ℝ) : Except Unit ℝ :=
  if b = 0 then Except.error () else Except.ok (a / b)

/-- Pair body of `gravitate_glue` with every division checked. -/
noncomputable def gravitate_pair_checked (g : ℝ) (s : List Circle) (i j : ℕ) :
    Except Unit (List Circle) :=
  let ci := nth s i
  let cj := nth s j
  let dx := ci.position.1 - cj.position.1
  let dy := ci.position.2 - cj.position.2
  let d := hypot dx dy
  if d < ci.radius + cj.radius then
    Except.ok ((s.set i { ci with glued := true }).set j { cj with glued := true })
  else do
    let t ← pythonDiv g d
    let force ← pythonDiv t d
    let fx ← pythonDiv (force * dx) d
    let fy ← pythonDiv (force * dy) d
    Except.ok ((s.set i { ci with velocity :=
        (ci.velocity.1 - fx, ci.velocity.2 - fy) }).set j
      { cj with velocity := (cj.velocity.1 + fx, cj.velocity.2 + fy) })

/-- Outer-loop iteration of the checked step. -/
noncomputable def gravitate_body_checked (g : ℝ) (s : List Circle) (i : ℕ) :
    Except Unit (List Circle) :=
  let s1 :=
    if g < 0 ∨ (nth s i).glued = false then
      s.set i { nth s i with position :=
        ((nth s i).position.1 + (nth s i).velocity.1,
         (nth s i).position.2 + (nth s i).velocity.2) }
    else s
  (innerJs i s1.length).foldlM (fun t j => gravitate_pair_checked g t i j) s1

/-- Full `gravitate_glue` with Python division semantics. -/
noncomputable def gravitate_glue_checked (cs : List Circle) (g : ℝ) :
    Except Unit (List Circle) :=
  (List.range cs.length).foldlM (fun s i => gravitate_body_checked g s i) cs

/-- Radius-zero circle sitting at the origin. -/
noncomputable def zc : Circle := ⟨(0, 0), (0, 0), 0, false⟩

/-- C5: two coincident bodies of radius zero slip past the collision check
(`distance < 0 + 0` is false) and reach the unguarded division
`g_constant / distance / distance` with `distance = 0`: the checked model
hits the error branch, so the division-by-zero is reachable. -/
theorem division_by_zero_reachable :
    ¬ (hypot (zc.position.1 - zc.position.1) (zc.position.2 - zc.position.2)
        < zc.radius + zc.radius) ∧
    gravitate_glue_checked [zc, zc] 1 = Except.error () := by
  constructor
  · simp [zc, hypot]
  · rw [gravitate_glue_checked, show ([zc, zc] : List Circle).length = 2 from rfl,
      show List.range 2 = [0, 1] from rfl]
    simp [gravitate_body_checked, gravitate_pair_checked, pythonDiv, zc, hypot,
      innerJs, Bind.bind, Except.bind]

/-! Generator `distribute_circles`.

The Python code divides the bounding rectangle into boxes of side
`2 * radius_max`, spaced a box apart, shuffles them, and draws one circle
per box with `randint` positions inside the box and a `randint` radius in
`[radius_min, radius_max]`.  The random draws are modelled as parameters:
`shuffled` is any permutation of the box list (the outcome of
`random.shuffle`), and `posx`/`posy`/`radc` give the `randint` outcomes
for the circle of each index (constrained to their ranges by the
theorem's hypotheses).  `x_bound / radius_max / 2` is integer division. -/

abbrev Box := ℕ × ℕ × ℕ × ℕ

/-- The box appended for grid indices `(i, j)`:
`(2*i*rmax*2, (2*i+1)*rmax*2, 2*j*rmax*2, (2*j+1)*rmax*2)`. -/
def mkBox (rmax i j : ℕ) : Box :=
  (2 * i * rmax * 2, (2 * i + 1) * rmax * 2, 2 * j * rmax * 2, (2 * j + 1) * rmax * 2)

/-- The `bound_boxes` list built by the nested loops. -/
def bound_boxes (xb yb rmax : ℕ) : List Box :=
  (List.range (xb / rmax / 2)).flatMap fun i =>
    (List.range (yb / rmax / 2)).map fun j => mkBox rmax i j

/-- The circles returned: one per box for the first
`min number (shuffled length)` shuffled boxes. -/
noncomputable def distribute_circles (number rmin rmax xb yb : ℕ)
    (shuffled : List Box) (posx posy radc : ℕ → ℕ) : List Circle :=
  (List.range (min number shuffled.length)).map fun idx =>
    { position := ((posx idx : ℝ), (posy idx : ℝ)), velocity := (0, 0),
      radius := ((radc idx : ℝ)), glued := false }

theorem box_coord_cancel (rmax a b : ℕ) (h : 0 < rmax)
    (he : 2 * a * rmax * 2 = 2 * b * rmax * 2) : a = b := by
  have h2 := Nat.eq_of_mul_eq_mul_right (by norm_num : 0 < 2) he
  have h4 := Nat.eq_of_mul_eq_mul_right h h2
  omega

theorem mem_bound_boxes {xb yb rmax : ℕ} {b : Box} (h : b ∈ bound_boxes xb yb rmax) :
    ∃ i j, i < xb / rmax / 2 ∧ j < yb / rmax / 2 ∧ b = mkBox rmax i j := by
  rcases List.mem_flatMap.mp h with ⟨i, hi, hb⟩
  rcases List.mem_map.mp hb with ⟨j, hj, rfl⟩
  exact ⟨i, j, List.mem_range.mp hi, List.mem_range.mp hj, rfl⟩

theorem nodup_bound_boxes (xb yb rmax : ℕ) (h : 0 < rmax) :
    (bound_boxes xb yb rmax).Nodup := by
  unfold bound_boxes
  refine List.nodup_flatMap.mpr ⟨fun i _ => ?_, ?_⟩
  · refine (List.nodup_map_iff_inj_on (List.nodup_range _)).mpr ?_
    intro j1 _ j2 _ he
    have h3 := congrArg (fun b : Box => b.2.2.1) he
    simp only [mkBox] at h3
    exact box_coord_cancel rmax j1 j2 h h3
  · refine List.Pairwise.imp ?_ (List.pairwise_lt_range _)
    intro i1 i2 hlt x hx1 hx2
    rcases List.mem_map.mp hx1 with ⟨j1, -, rfl⟩
    rcases List.mem_map.mp hx2 with ⟨j2, -, he⟩
    have h1 := congrArg (fun b : Box => b.1) he
    simp only [mkBox] at h1
    exact absurd (box_coord_cancel rmax i2 i1 h h1) (Nat.ne_of_gt hlt)

theorem cell_gap_one (rmax i1 i2 x1 x2 : ℕ) (hlt : i1 < i2)
    (h1u : x1 ≤ (2 * i1 + 1) * rmax * 2) (h2l : 2 * i2 * rmax * 2 ≤ x2) :
    x1 + 2 * rmax ≤ x2 := by
  have key : (2 * i1 + 1) * rmax * 2 + 2 * rmax ≤ 2 * i2 * rmax * 2 := by
    have h4 : i1 + 1 ≤ i2 := hlt
    have hmul : 4 * (i1 + 1) * rmax ≤ 4 * i2 * rmax := by
      gcongr
    calc (2 * i1 + 1) * rmax * 2 + 2 * rmax = 4 * (i1 + 1) * rmax := by ring
      _ ≤ 4 * i2 * rmax := hmul
      _ = 2 * i2 * rmax * 2 := by ring
  omega

theorem abs_le_hypot_x (dx dy : ℝ) : |dx| ≤ hypot dx dy := by
  unfold hypot
  rw [← Real.sqrt_mul_self_eq_abs]
  apply Real.sqrt_le_sqrt
  nlinarith [mul_self_nonneg dy]

theorem abs_le_hypot_y (dx dy : ℝ) : |dy| ≤ hypot dx dy := by
  unfold hypot
  rw [← Real.sqrt_mul_self_eq_abs]
  apply Real.sqrt_le_sqrt
  nlinarith [mul_self_nonneg dx]

/-- C6: non-overlap of generated grid circles — whatever the outcome of
the shuffle and of every `randint` draw, any two distinct returned
circles are at center distance at least the sum of their radii. -/
theorem distribute_circles_no_overlap (number rmin rmax xb yb : ℕ)
    (shuffled : List Box) (posx posy radc : ℕ → ℕ)
    (hrmin : 0 < rmin) (hrr : rmin ≤ rmax)
    (hperm : shuffled.Perm (bound_boxes xb yb rmax))
    (hx : ∀ idx, idx < min number shuffled.length →
      (shuffled.getD idx (0, 0, 0, 0)).1 ≤ posx idx ∧
        posx idx ≤ (shuffled.getD idx (0, 0, 0, 0)).2.1)
    (hy : ∀ idx, idx < min number shuffled.length →
      (shuffled.getD idx (0, 0, 0, 0)).2.2.1 ≤ posy idx ∧
        posy idx ≤ (shuffled.getD idx (0, 0, 0, 0)).2.2.2)
    (hr : ∀ idx, idx < min number shuffled.length →
      rmin ≤ radc idx ∧ radc idx ≤ rmax) :
    ∀ p q, p < (distribute_circles number rmin rmax xb yb shuffled posx posy radc).length →
      q < (distribute_circles number rmin rmax xb yb shuffled posx posy radc).length →
      p ≠ q →
      (nth (distribute_circles number rmin rmax xb yb shuffled posx posy radc) p).radius +
        (nth (distribute_circles number rmin rmax xb yb shuffled posx posy radc) q).radius ≤
      hypot
        ((nth (distribute_circles number rmin rmax xb yb shuffled posx posy radc) p).position.1 -
         (nth (distribute_circles number rmin rmax xb yb shuffled posx posy radc) q).position.1)
        ((nth (distribute_circles number rmin rmax xb yb shuffled posx posy radc) p).position.2 -
         (nth (distribute_circles number rmin rmax xb yb shuffled posx posy radc) q).position.2) := by
  intro p q hp hq hne
  have hrmax : 0 < rmax := lt_of_lt_of_le hrmin hrr
  have hlen : (distribute_circles number rmin rmax xb yb shuffled posx posy radc).length
      = min number shuffled.length := by
    simp [distribute_circles]
  rw [hlen] at hp hq
  have hps : p < shuffled.length := lt_of_lt_of_le hp (Nat.min_le_right _ _)
  have hqs : q < shuffled.length := lt_of_lt_of_le hq (Nat.min_le_right _ _)
  have hnthp : nth (distribute_circles number rmin rmax xb yb shuffled posx posy radc) p =
      { position := ((posx p : ℝ), (posy p : ℝ)), velocity := (0, 0),
        radius := ((radc p : ℝ)), glued := false } := by
    unfold distribute_circles
    exact nth_map_range _ _ _ hp
  have hnthq : nth (distribute_circles number rmin rmax xb yb shuffled posx posy radc) q =
      { position := ((posx q : ℝ), (posy q : ℝ)), velocity := (0, 0),
        radius := ((radc q : ℝ)), glued := false } := by
    unfold distribute_circles
    exact nth_map_range _ _ _ hq
  rw [hnthp, hnthq]
  -- the two boxes are distinct members of the grid
  have hnodup : shuffled.Nodup :=
    (List.Perm.nodup_iff hperm).mpr (nodup_bound_boxes xb yb rmax hrmax)
  have hboxp : shuffled.getD p (0, 0, 0, 0) = shuffled[p] := List.getD_eq_getElem _ _ hps
  have hboxq : shuffled.getD q (0, 0, 0, 0) = shuffled[q] := List.getD_eq_getElem _ _ hqs
  have hmemp : shuffled[p] ∈ bound_boxes xb yb rmax :=
    (List.Perm.mem_iff hperm).mp (List.getElem_mem hps)
  have hmemq : shuffled[q] ∈ bound_boxes xb yb rmax :=
    (List.Perm.mem_iff hperm).mp (List.getElem_mem hqs)
  have hboxne : shuffled[p] ≠ shuffled[q] := by
    intro h
    exact hne ((List.Nodup.getElem_inj_iff hnodup).mp h)
  rcases mem_bound_boxes hmemp with ⟨i1, j1, -, -, hbp⟩
  rcases mem_bound_boxes hmemq with ⟨i2, j2, -, -, hbq⟩
  -- randint bounds, written through the grid coordinates
  have hxp := hx p hp
  have hxq := hx q hq
  have hyp' := hy p hp
  have hyq := hy q hq
  rw [hboxp, hbp] at hxp hyp'
  rw [hboxq, hbq] at hxq hyq
  simp only [mkBox] at hxp hxq hyp' hyq
  -- radius bounds, cast to the reals
  have hrp := hr p hp
  have hrq := hr q hq
  have hrads : (radc p : ℝ) + (radc q : ℝ) ≤ 2 * (rmax : ℝ) := by
    have h1 : radc p ≤ rmax := hrp.2
    have h2 : radc q ≤ rmax := hrq.2
    exact_mod_cast (by omega : radc p + radc q ≤ 2 * rmax)
  -- the two grid cells differ in at least one axis
  have hij : i1 ≠ i2 ∨ j1 ≠ j2 := by
    by_contra hcon
    push_neg at hcon
    exact hboxne (by rw [hbp, hbq, hcon.1, hcon.2])
  have habs : 2 * (rmax : ℝ) ≤
      hypot ((posx p : ℝ) - (posx q : ℝ)) ((posy p : ℝ) - (posy q : ℝ)) := by
    rcases hij with hii | hjj
    · -- gap on the x axis
      have hgap : posx p + 2 * rmax ≤ posx q ∨ posx q + 2 * rmax ≤ posx p := by
        rcases Nat.lt_or_ge i1 i2 with hlt | hge
        · exact Or.inl (cell_gap_one rmax i1 i2 _ _ hlt hxp.2 hxq.1)
        · have hlt : i2 < i1 := lt_of_le_of_ne hge (Ne.symm hii)
          exact Or.inr (cell_gap_one rmax i2 i1 _ _ hlt hxq.2 hxp.1)
      refine le_trans ?_ (abs_le_hypot_x _ _)
      rcases hgap with h | h
      · have hc : (posx p : ℝ) + 2 * (rmax : ℝ) ≤ (posx q : ℝ) := by exact_mod_cast h
        calc 2 * (rmax : ℝ) ≤ (posx q : ℝ) - (posx p : ℝ) := by linarith
          _ ≤ |(posx p : ℝ) - (posx q : ℝ)| := by
              rw [abs_sub_comm]; exact le_abs_self _
      · have hc : (posx q : ℝ) + 2 * (rmax : ℝ) ≤ (posx p : ℝ) := by exact_mod_cast h
        calc 2 * (rmax : ℝ) ≤ (posx p : ℝ) - (posx q : ℝ) := by linarith
          _ ≤ |(posx p : ℝ) - (posx q : ℝ)| := le_abs_self _
    · -- gap on the y axis
      have hgap : posy p + 2 * rmax ≤ posy q ∨ posy q + 2 * rmax ≤ posy p := by
        rcases Nat.lt_or_ge j1 j2 with hlt | hge
        · exact Or.inl (cell_gap_one rmax j1 j2 _ _ hlt hyp'.2 hyq.1)
        · have hlt : j2 < j1 := lt_of_le_of_ne hge (Ne.symm hjj)
          exact Or.inr (cell_gap_one rmax j2 j1 _ _ hlt hyq.2 hyp'.1)
      refine le_trans ?_ (abs_le_hypot_y _ _)
      rcases hgap with h | h
      · have hc : (posy p : ℝ) + 2 * (rmax : ℝ) ≤ (posy q : ℝ) := by exact_mod_cast h
        calc 2 * (rmax : ℝ) ≤ (posy q : ℝ) - (posy p : ℝ) := by linarith
          _ ≤ |(posy p : ℝ) - (posy q : ℝ)| := by
              rw [abs_sub_comm]; exact le_abs_self _
      · have hc : (posy q : ℝ) + 2 * (rmax : ℝ) ≤ (posy p : ℝ) := by exact_mod_cast h
        calc 2 * (rmax : ℝ) ≤ (posy p : ℝ) - (posy q : ℝ) := by linarith
          _ ≤ |(posy p : ℝ) - (posy q : ℝ)| := le_abs_self _
  exact le_trans hrads habs

/-! Concrete random outcomes for the C6 witness: the identity shuffle of
the `4 × 4`, `radius_max = 1` grid; every draw at the lower end of its
range except the second circle's y, drawn at `4`. -/

def wposx : ℕ → ℕ := fun _ => 0

def wposy : ℕ → ℕ := fun idx => if idx = 0 then 0 else 4

def wradc : ℕ → ℕ := fun _ => 1

/-- Witness for C6: two circles drawn from the first two boxes of the
unshuffled `4 × 4` grid. -/
theorem distribute_circles_no_overlap_witness :
    (0 : ℕ) ≠ 1 ∧
    (nth (distribute_circles 2 1 1 4 4 (bound_boxes 4 4 1) wposx wposy wradc) 0).radius +
      (nth (distribute_circles 2 1 1 4 4 (bound_boxes 4 4 1) wposx wposy wradc) 1).radius ≤
    hypot
      ((nth (distribute_circles 2 1 1 4 4 (bound_boxes 4 4 1) wposx wposy wradc) 0).position.1 -
       (nth (distribute_circles 2 1 1 4 4 (bound_boxes 4 4 1) wposx wposy wradc) 1).position.1)
      ((nth (distribute_circles 2 1 1 4 4 (bound_boxes 4 4 1) wposx wposy wradc) 0).position.2 -
       (nth (distribute_circles 2 1 1 4 4 (bound_boxes 4 4 1) wposx wposy wradc) 1).position.2) := by
  refine ⟨by decide, ?_⟩
  refine distribute_circles_no_overlap 2 1 1 4 4 (bound_boxes 4 4 1) wposx wposy wradc
    (by decide) (by decide) (List.Perm.refl _) ?_ ?_ ?_ 0 1 ?_ ?_ (by decide)
  · intro idx h
    have h2 : idx < 2 := lt_of_lt_of_le h (Nat.min_le_left _ _)
    interval_cases idx <;> decide
  · intro idx h
    have h2 : idx < 2 := lt_of_lt_of_le h (Nat.min_le_left _ _)
    interval_cases idx <;> decide
  · intro idx h
    have h2 : idx < 2 := lt_of_lt_of_le h (Nat.min_le_left _ _)
    interval_cases idx <;> decide
  · show 0 < (distribute_circles 2 1 1 4 4 (bound_boxes 4 4 1) wposx wposy wradc).length
    simp [distribute_circles, bound_boxes]
    decide
  · show 1 < (distribute_circles 2 1 1 4 4 (bound_boxes 4 4 1) wposx wposy wradc).length
    simp [distribute_circles, bound_boxes]
    decide

/-! Operation `break_circles`.

`break_circles(circles, break_constant, time_skip)`: per body, clear the
glued flag (resetting velocity) when set, then for each pair `(i, j)`,
`j > i`, **assign** (overwrite, not accumulate) the repulsive
inverse-square velocity on both bodies; finally jump every position by
`time_skip * velocity`.  Positions never change before the final pass, so
every pair's force is computed from the original positions. -/

/-- The vector assigned to the smaller-index body of a pair:
`force * (dx, dy) / distance` with `force = -break_constant / distance²`. -/
noncomputable def assignI (p q : ℝ × ℝ) (k : ℝ) : ℝ × ℝ :=
  let dx := p.1 - q.1
  let dy := p.2 - q.2
  let d := hypot dx dy
  let force := -k / d / d
  (force * dx / d, force * dy / d)

/-- The vector assigned to the larger-index body (`-force * (dx, dy) / d`). -/
noncomputable def assignJ (p q : ℝ × ℝ) (k : ℝ) : ℝ × ℝ :=
  let dx := p.1 - q.1
  let dy := p.2 - q.2
  let d := hypot dx dy
  let force := -k / d / d
  ((-force) * dx / d, (-force) * dy / d)

/-- Inner-loop body of `break_circles` for one pair `(i, j)`: overwrite
both velocities. -/
noncomputable def break_pair (k : ℝ) (s : List Circle) (i j : ℕ) : List Circle :=
  (s.set i { nth s i with
      velocity := assignI (nth s i).position (nth s j).position k }).set j
    { nth s j with
      velocity := assignJ (nth s i).position (nth s j).position k }

/-- One iteration of the outer loop of `break_circles`: unglue body `i`
(resetting its velocity) when glued, then run the pair loop. -/
noncomputable def break_body (k : ℝ) (s : List Circle) (i : ℕ) : List Circle :=
  let s1 :=
    if (nth s i).glued = true then
      s.set i { nth s i with glued := false, velocity := (0, 0) }
    else s
  (innerJs i s1.length).foldl (fun t j => break_pair k t i j) s1

/-- The pairwise phase of `break_circles` (everything before the final
position jump). -/
noncomputable def breakPhase1 (cs : List Circle) (k : ℝ) : List Circle :=
  (List.range cs.length).foldl (break_body k) cs

/-- Full `break_circles`: pairwise phase then `position += time_skip *
velocity` on every body. -/
noncomputable def break_circles (cs : List Circle) (k ts : ℝ) : List Circle :=
  (breakPhase1 cs k).map fun c =>
    { c with position := (c.position.1 + ts * c.velocity.1,
                          c.position.2 + ts * c.velocity.2) }

/-- The spec's predicted "velocity used in the final pass": the repulsive
force vector of the **last-processed pair** involving body `m` — pair
`(m, n-1)` for `m < n-1` (where `m` is the smaller index), pair
`(n-2, n-1)` for `m = n-1` (where `m` is the larger index); follows the
spec's words. -/
noncomputable def last_pair_force (cs : List Circle) (k : ℝ) (m : ℕ) : ℝ × ℝ :=
  if m + 1 = cs.length then
    assignJ (nth cs (cs.length - 2)).position (nth cs m).position k
  else
    assignI (nth cs m).position (nth cs (cs.length - 1)).position k

theorem break_pair_length (k : ℝ) (s : List Circle) (i j : ℕ) :
    (break_pair k s i j).length = s.length := by
  simp [break_pair, List.length_set]

theorem break_pair_position (k : ℝ) (s : List Circle) (i j m : ℕ) :
    (nth (break_pair k s i j) m).position = (nth s m).position := by
  simp only [break_pair]
  exact nth_set2_pres Circle.position s i j m _ _ rfl rfl

theorem break_pair_glued (k : ℝ) (s : List Circle) (i j m : ℕ) :
    (nth (break_pair k s i j) m).glued = (nth s m).glued := by
  simp only [break_pair]
  exact nth_set2_pres Circle.glued s i j m _ _ rfl rfl

theorem break_pair_untouched (k : ℝ) (s : List Circle) (i j m : ℕ)
    (hmi : m ≠ i) (hmj : m ≠ j) : nth (break_pair k s i j) m = nth s m := by
  simp only [break_pair]
  rw [nth_set_ne _ j m _ (Ne.symm hmj), nth_set_ne s i m _ (Ne.symm hmi)]

theorem innerJs_mem (i n j : ℕ) (h : j ∈ innerJs i n) : i < j := by
  have := (List.mem_range'_1.mp h).1
  omega

theorem break_body_length (k : ℝ) (s : List Circle) (i : ℕ) :
    (break_body k s i).length = s.length := by
  simp only [break_body]
  refine foldl_inv (P := fun t : List Circle => t.length = s.length) _
    (fun t j _ ht => ?_) _ ?_
  · show (break_pair k t i j).length = s.length
    rw [break_pair_length, ht]
  · split <;> simp [List.length_set]

theorem break_body_position (k : ℝ) (s : List Circle) (i m : ℕ) :
    (nth (break_body k s i) m).position = (nth s m).position := by
  simp only [break_body]
  refine foldl_inv (P := fun t : List Circle =>
      (nth t m).position = (nth s m).position) _ (fun t j _ ht => ?_) _ ?_
  · show (nth (break_pair k t i j) m).position = (nth s m).position
    rw [break_pair_position, ht]
  · split
    · exact nth_set1_pres Circle.position s i m _ rfl
    · rfl

theorem break_body_glued_ne (k : ℝ) (s : List Circle) (i m : ℕ) (hmi : m ≠ i) :
    (nth (break_body k s i) m).glued = (nth s m).glued := by
  simp only [break_body]
  refine foldl_inv (P := fun t : List Circle =>
      (nth t m).glued = (nth s m).glued) _ (fun t j _ ht => ?_) _ ?_
  · show (nth (break_pair k t i j) m).glued = (nth s m).glued
    rw [break_pair_glued, ht]
  · split
    · rw [nth_set_ne s i m _ (Ne.symm hmi)]
    · rfl

theorem break_body_untouched (k : ℝ) (s : List Circle) (i m : ℕ) (hmi : m < i) :
    nth (break_body k s i) m = nth s m := by
  simp only [break_body]
  refine foldl_inv (P := fun t : List Circle => nth t m = nth s m) _
    (fun t j hj ht => ?_) _ ?_
  · show nth (break_pair k t i j) m = nth s m
    have hij : i < j := innerJs_mem _ _ _ hj
    rw [break_pair_untouched k t i j m (by omega) (by omega), ht]
  · split
    · rw [nth_set_ne s i m _ (by omega)]
    · rfl

theorem foldl_break_length (k : ℝ) (l : List ℕ) (s : List Circle) :
    (l.foldl (break_body k) s).length = s.length := by
  refine foldl_inv (P := fun t : List Circle => t.length = s.length) _
    (fun t i _ ht => ?_) _ rfl
  show (break_body k t i).length = s.length
  rw [break_body_length, ht]

theorem foldl_break_position (k : ℝ) (l : List ℕ) (s : List Circle) (m : ℕ) :
    (nth (l.foldl (break_body k) s) m).position = (nth s m).position := by
  refine foldl_inv (P := fun t : List Circle =>
      (nth t m).position = (nth s m).position) _ (fun t i _ ht => ?_) _ rfl
  show (nth (break_body k t i) m).position = (nth s m).position
  rw [break_body_position, ht]

theorem foldl_break_glued (k : ℝ) (l : List ℕ) (s : List Circle) (m : ℕ)
    (h : ∀ i ∈ l, i ≠ m) :
    (nth (l.foldl (break_body k) s) m).glued = (nth s m).glued := by
  refine foldl_inv (P := fun t : List Circle =>
      (nth t m).glued = (nth s m).glued) _ (fun t i hi ht => ?_) _ rfl
  show (nth (break_body k t i) m).glued = (nth s m).glued
  rw [break_body_glued_ne k t i m (Ne.symm (h i hi)), ht]

theorem foldl_break_untouched (k : ℝ) (l : List ℕ) (s : List Circle) (m : ℕ)
    (h : ∀ i ∈ l, m < i) :
    nth (l.foldl (break_body k) s) m = nth s m := by
  refine foldl_inv (P := fun t : List Circle => nth t m = nth s m) _
    (fun t i hi ht => ?_) _ rfl
  show nth (break_body k t i) m = nth s m
  rw [break_body_untouched k t i m (h i hi), ht]

/-- Last write to the smaller-index body `i` of the inner loop: the value
assigned when the final pair `(i, getLast js)` is processed. -/
theorem inner_last_i (k : ℝ) (i : ℕ) :
    ∀ (js : List ℕ) (j0 : ℕ) (s : List Circle), js.getLast? = some j0 →
      i < s.length → (∀ j ∈ js, i < j) →
      (nth (js.foldl (fun t j => break_pair k t i j) s) i).velocity =
        assignI (nth s i).position (nth s j0).position k
  | [], j0, s, hlast, _, _ => by simp at hlast
  | [j], j0, s, hlast, hi, hmem => by
      have hj : j = j0 := by simpa using hlast
      subst hj
      have hji : j ≠ i := Nat.ne_of_gt (hmem j (List.mem_singleton_self j))
      show (nth (break_pair k s i j) i).velocity = _
      simp only [break_pair]
      rw [nth_set_ne _ j i _ hji, nth_set_self s i _ hi]
  | j :: j' :: js, j0, s, hlast, hi, hmem => by
      have hlast' : (j' :: js).getLast? = some j0 := by
        rwa [List.getLast?_cons_cons] at hlast
      have hj0mem : j0 ∈ j' :: js := List.mem_of_mem_getLast? hlast'
      show (nth ((j' :: js).foldl (fun t j => break_pair k t i j) (break_pair k s i j))
          i).velocity = _
      rw [inner_last_i k i (j' :: js) j0 (break_pair k s i j) hlast'
        (by rw [break_pair_length]; exact hi)
        (fun a ha => hmem a (List.mem_cons_of_mem j ha))]
      rw [break_pair_position, break_pair_position]

/-- Last write to the final body `j0` of the inner loop: the value
assigned when the pair `(i, j0)` is processed (its last occurrence). -/
theorem inner_last_j (k : ℝ) (i : ℕ) :
    ∀ (js : List ℕ) (j0 : ℕ) (s : List Circle), js.getLast? = some j0 →
      js.Nodup → (∀ j ∈ js, i < j) → j0 < s.length →
      (nth (js.foldl (fun t j => break_pair k t i j) s) j0).velocity =
        assignJ (nth s i).position (nth s j0).position k
  | [], j0, s, hlast, _, _, _ => by simp at hlast
  | [j], j0, s, hlast, _, _, hlen => by
      have hj : j = j0 := by simpa using hlast
      subst hj
      show (nth (break_pair k s i j) j).velocity = _
      simp only [break_pair]
      rw [nth_set_self _ j _ (by rw [List.length_set]; exact hlen)]
  | j :: j' :: js, j0, s, hlast, hnd, hmem, hlen => by
      have hlast' : (j' :: js).getLast? = some j0 := by
        rwa [List.getLast?_cons_cons] at hlast
      have hj0mem : j0 ∈ j' :: js := List.mem_of_mem_getLast? hlast'
      have hjj0 : j ≠ j0 := by
        intro h
        subst h
        exact (List.nodup_cons.mp hnd).1 hj0mem
      have hij0 : i ≠ j0 :=
        Nat.ne_of_lt (hmem j0 (List.mem_cons_of_mem j hj0mem))
      show (nth ((j' :: js).foldl (fun t j => break_pair k t i j) (break_pair k s i j))
          j0).velocity = _
      rw [inner_last_j k i (j' :: js) j0 (break_pair k s i j) hlast'
        (List.nodup_cons.mp hnd).2
        (fun a ha => hmem a (List.mem_cons_of_mem j ha))
        (by rw [break_pair_length]; exact hlen)]
      rw [break_pair_position, break_pair_untouched k s i j j0 (Ne.symm hij0) (Ne.symm hjj0)]

/-- Split the outer fold of `breakPhase1` at iteration `a`. -/
theorem foldl_range_split (k : ℝ) (cs : List Circle) (a b : ℕ)
    (h : cs.length = a + b) :
    breakPhase1 cs k =
      (List.range' a b).foldl (break_body k)
        ((List.range' 0 a).foldl (break_body k) cs) := by
  rw [breakPhase1, List.range_eq_range', h, Nat.add_comm a b,
    ← List.range'_append_1 0 a b, Nat.zero_add, List.foldl_append]

/-- After the pairwise phase, a body `m` that is not the last one holds
exactly the vector assigned at its final pair `(m, n-1)`. -/
theorem breakPhase1_small (cs : List Circle) (k : ℝ) (m : ℕ)
    (hm : m + 1 < cs.length) :
    (nth (breakPhase1 cs k) m).velocity =
      assignI (nth cs m).position (nth cs (cs.length - 1)).position k := by
  rw [foldl_range_split k cs (m + 1) (cs.length - (m + 1)) (by omega)]
  rw [foldl_break_untouched k _ _ m
    (fun i hi => by have := (List.mem_range'_1.mp hi).1; omega)]
  rw [show List.range' 0 (m + 1) = List.range' 0 m ++ [0 + m] from
    List.range'_1_concat 0 m, Nat.zero_add, List.foldl_append]
  rw [show List.foldl (break_body k)
      (List.foldl (break_body k) cs (List.range' 0 m)) [m]
      = break_body k (List.foldl (break_body k) cs (List.range' 0 m)) m from rfl]
  have hmidlen : (List.foldl (break_body k) cs (List.range' 0 m)).length = cs.length :=
    foldl_break_length k _ cs
  have hmidpos : ∀ r,
      (nth (List.foldl (break_body k) cs (List.range' 0 m)) r).position
        = (nth cs r).position :=
    fun r => foldl_break_position k _ cs r
  have key : ∀ s1 : List Circle, s1.length = cs.length →
      (∀ r, (nth s1 r).position = (nth cs r).position) →
      (nth ((innerJs m s1.length).foldl (fun t j => break_pair k t m j) s1) m).velocity =
        assignI (nth cs m).position (nth cs (cs.length - 1)).position k := by
    intro s1 h1 h2
    have hjs : (innerJs m s1.length).getLast? = some (cs.length - 1) := by
      rw [h1]
      unfold innerJs
      rw [show cs.length - (m + 1) = (cs.length - (m + 1) - 1) + 1 from by omega,
        List.range'_1_concat, List.getLast?_concat]
      congr 1
      omega
    rw [inner_last_i k m (innerJs m s1.length) (cs.length - 1) s1 hjs
      (by rw [h1]; omega) (fun j hj => innerJs_mem _ _ _ hj)]
    rw [h2 m, h2 (cs.length - 1)]
  simp only [break_body]
  split
  case isTrue h =>
    refine key _ (by rw [List.length_set, hmidlen]) fun r => ?_
    exact (nth_set1_pres Circle.position _ m r _ (by rfl)).trans (hmidpos r)
  case isFalse h => exact key _ hmidlen hmidpos

/-- After the pairwise phase, the last body holds the vector of the pair
`(n-2, n-1)` when it entered unglued, and `(0, 0)` when it entered glued
(its unglue reset runs after its last pair). -/
theorem breakPhase1_last (cs : List Circle) (k : ℝ) (h2 : 2 ≤ cs.length) :
    ((nth cs (cs.length - 1)).glued = false →
      (nth (breakPhase1 cs k) (cs.length - 1)).velocity =
        assignJ (nth cs (cs.length - 2)).position
          (nth cs (cs.length - 1)).position k) ∧
    ((nth cs (cs.length - 1)).glued = true →
      (nth (breakPhase1 cs k) (cs.length - 1)).velocity = (0, 0)) := by
  have hsplit := foldl_range_split k cs (cs.length - 1) 1 (by omega)
  have hpre_len : (List.foldl (break_body k) cs (List.range' 0 (cs.length - 1))).length
      = cs.length := foldl_break_length k _ cs
  have hpre_pos : ∀ r,
      (nth (List.foldl (break_body k) cs (List.range' 0 (cs.length - 1))) r).position
        = (nth cs r).position := fun r => foldl_break_position k _ cs r
  have hpre_glued :
      (nth (List.foldl (break_body k) cs (List.range' 0 (cs.length - 1)))
        (cs.length - 1)).glued = (nth cs (cs.length - 1)).glued := by
    refine foldl_break_glued k _ cs _ fun i hi => ?_
    have := (List.mem_range'_1.mp hi).2
    omega
  have hpre_vel :
      (nth (List.foldl (break_body k) cs (List.range' 0 (cs.length - 1)))
        (cs.length - 1)).velocity =
      assignJ (nth cs (cs.length - 2)).position (nth cs (cs.length - 1)).position k := by
    rw [show List.range' 0 (cs.length - 1) = List.range' 0 (cs.length - 2) ++ [0 + (cs.length - 2)]
      from by rw [← List.range'_1_concat 0 (cs.length - 2)]; congr 1; omega]
    rw [Nat.zero_add, List.foldl_append]
    rw [show List.foldl (break_body k)
        (List.foldl (break_body k) cs (List.range' 0 (cs.length - 2))) [cs.length - 2]
        = break_body k (List.foldl (break_body k) cs (List.range' 0 (cs.length - 2)))
          (cs.length - 2) from rfl]
    have hmidlen : (List.foldl (break_body k) cs (List.range' 0 (cs.length - 2))).length
        = cs.length := foldl_break_length k _ cs
    have hmidpos : ∀ r,
        (nth (List.foldl (break_body k) cs (List.range' 0 (cs.length - 2))) r).position
          = (nth cs r).position := fun r => foldl_break_position k _ cs r
    have key : ∀ s1 : List Circle, s1.length = cs.length →
        (∀ r, (nth s1 r).position = (nth cs r).position) →
        (nth ((innerJs (cs.length - 2) s1.length).foldl
            (fun t j => break_pair k t (cs.length - 2) j) s1) (cs.length - 1)).velocity =
          assignJ (nth cs (cs.length - 2)).position (nth cs (cs.length - 1)).position k := by
      intro s1 h1 h2'
      have hjs : innerJs (cs.length - 2) s1.length = [cs.length - 1] := by
        rw [h1]
        unfold innerJs
        rw [show cs.length - (cs.length - 2 + 1) = 1 from by omega]
        rw [show List.range' (cs.length - 2 + 1) 1 = [cs.length - 2 + 1] from rfl]
        congr 1
        omega
      rw [hjs]
      rw [inner_last_j k (cs.length - 2) [cs.length - 1] (cs.length - 1) s1 rfl
        (List.nodup_singleton _) (fun j hj => by
          rcases List.mem_singleton.mp hj with rfl
          omega)
        (by rw [h1]; omega)]
      rw [h2' (cs.length - 2), h2' (cs.length - 1)]
    simp only [break_body]
    split
    case isTrue h =>
      refine key _ (by rw [List.length_set, hmidlen]) fun r => ?_
      exact (nth_set1_pres Circle.position _ _ r _ (by rfl)).trans (hmidpos r)
    case isFalse h => exact key _ hmidlen hmidpos
  have hfin : breakPhase1 cs k =
      break_body k (List.foldl (break_body k) cs (List.range' 0 (cs.length - 1)))
        (cs.length - 1) := by
    rw [hsplit]
    rfl
  constructor
  · intro hglue
    rw [hfin]
    simp only [break_body]
    rw [if_neg (by rw [hpre_glued, hglue]; simp)]
    rw [show innerJs (cs.length - 1)
        (List.foldl (break_body k) cs (List.range' 0 (cs.length - 1))).length = [] from by
      rw [hpre_len]; unfold innerJs; rw [show cs.length - (cs.length - 1 + 1) = 0 from by omega]
      rfl]
    rw [List.foldl_nil]
    exact hpre_vel
  · intro hglue
    rw [hfin]
    simp only [break_body]
    rw [if_pos (by rw [hpre_glued, hglue])]
    rw [show innerJs (cs.length - 1)
        ((List.foldl (break_body k) cs (List.range' 0 (cs.length - 1))).set (cs.length - 1)
          { nth (List.foldl (break_body k) cs (List.range' 0 (cs.length - 1)))
              (cs.length - 1) with glued := false, velocity := (0, 0) }).length = [] from by
      rw [List.length_set, hpre_len]
      unfold innerJs
      rw [show cs.length - (cs.length - 1 + 1) = 0 from by omega]
      rfl]
    rw [List.foldl_nil]
    rw [nth_set_self _ _ _ (by rw [hpre_len]; omega)]

theorem nth_map (f : Circle → Circle) (l : List Circle) (m : ℕ) (h : m < l.length) :
    nth (l.map f) m = f (nth l m) := by
  simp [nth, List.getD_eq_getElem?_getD, List.getElem?_map, List.getElem?_eq_getElem h]

/-- The final pass of `break_circles` adds `time_skip * velocity` (the
velocity left by the pairwise phase) to every position. -/
theorem break_circles_position_jump (cs : List Circle) (k ts : ℝ) (m : ℕ)
    (hm : m < cs.length) :
    (nth (break_circles cs k ts) m).position.1
      = (nth cs m).position.1 + ts * (nth (breakPhase1 cs k) m).velocity.1 ∧
    (nth (break_circles cs k ts) m).position.2
      = (nth cs m).position.2 + ts * (nth (breakPhase1 cs k) m).velocity.2 := by
  have hlen : (breakPhase1 cs k).length = cs.length := by
    rw [breakPhase1]
    exact foldl_break_length k _ cs
  have hpos : (nth (breakPhase1 cs k) m).position = (nth cs m).position := by
    rw [breakPhase1]
    exact foldl_break_position k _ cs m
  rw [break_circles, nth_map _ _ m (by omega)]
  exact ⟨by dsimp; rw [hpos], by dsimp; rw [hpos]⟩

/-- C1 (amended): in `break_circles`, for every collection of at least two
bodies with pairwise distinct positions, the velocity used in the final
position jump equals the repulsive force vector of the last-processed
pair involving the body — **except for the last-indexed body when it
enters glued**: its unglue reset runs after its last pair, so the jump
uses velocity `(0, 0)` for it. -/
theorem break_last_pair_velocity (cs : List Circle) (k ts : ℝ)
    (hlen : 2 ≤ cs.length)
    (hdist : ∀ p q, p < cs.length → q < cs.length → p ≠ q →
      (nth cs p).position ≠ (nth cs q).position) :
    (∀ m, m + 1 < cs.length →
      (nth (breakPhase1 cs k) m).velocity = last_pair_force cs k m) ∧
    ((nth cs (cs.length - 1)).glued = false →
      (nth (breakPhase1 cs k) (cs.length - 1)).velocity
        = last_pair_force cs k (cs.length - 1)) ∧
    ((nth cs (cs.length - 1)).glued = true →
      (nth (breakPhase1 cs k) (cs.length - 1)).velocity = (0, 0)) ∧
    (∀ m, m < cs.length →
      (nth (break_circles cs k ts) m).position.1
        = (nth cs m).position.1 + ts * (nth (breakPhase1 cs k) m).velocity.1 ∧
      (nth (break_circles cs k ts) m).position.2
        = (nth cs m).position.2 + ts * (nth (breakPhase1 cs k) m).velocity.2) := by
  refine ⟨fun m hm => ?_, fun hg => ?_, fun hg => (breakPhase1_last cs k hlen).2 hg,
    fun m hm => break_circles_position_jump cs k ts m hm⟩
  · rw [breakPhase1_small cs k m hm, last_pair_force, if_neg (by omega)]
  · rw [(breakPhase1_last cs k hlen).1 hg, last_pair_force, if_pos (by omega)]

/-- Witness for the amended C1 on two unglued bodies. -/
theorem break_last_pair_velocity_witness :
    2 ≤ ([cA, cB] : List Circle).length ∧
    (nth (breakPhase1 [cA, cB] 1) 0).velocity = last_pair_force [cA, cB] 1 0 := by
  have hdist : ∀ p q, p < ([cA, cB] : List Circle).length →
      q < ([cA, cB] : List Circle).length → p ≠ q →
      (nth [cA, cB] p).position ≠ (nth [cA, cB] q).position := by
    intro p q hp hq hne
    have hp2 : p < 2 := hp
    have hq2 : q < 2 := hq
    interval_cases p <;> interval_cases q
    · exact absurd rfl hne
    · intro h
      have := congrArg Prod.fst h
      simp [cA, cB] at this
    · intro h
      have := congrArg Prod.fst h
      simp [cA, cB] at this
    · exact absurd rfl hne
  exact ⟨by decide,
    (break_last_pair_velocity [cA, cB] 1 10 (by decide) hdist).1 0 (by decide)⟩

/-- Counterexample to C1 as stated: with bodies at `(0,0)` (unglued) and
`(3,4)` (glued), break constant `1`, the glued last body's velocity going
into the final pass is `(0,0)`, not the force vector of its last pair
`(0, 1)`. -/
theorem break_last_pair_cex :
    2 ≤ ([cA, cBg] : List Circle).length ∧
    (nth [cA, cBg] 0).position ≠ (nth [cA, cBg] 1).position ∧
    (nth (breakPhase1 [cA, cBg] 1) 1).velocity ≠ last_pair_force [cA, cBg] 1 1 := by
  refine ⟨by decide, ?_, ?_⟩
  · intro h
    have := congrArg Prod.fst h
    simp [cA, cBg] at this
  · have hval : (nth (breakPhase1 [cA, cBg] 1) 1).velocity = (0, 0) := by
      rw [breakPhase1, show ([cA, cBg] : List Circle).length = 2 from rfl,
        show List.range 2 = [0, 1] from rfl]
      simp [break_body, break_pair, cA, cBg,
        show innerJs 0 2 = [1] from rfl, show innerJs 1 2 = [] from rfl, List.foldl]
    have hlpf : last_pair_force [cA, cBg] 1 1 = assignJ cA.position cBg.position 1 := by
      rw [last_pair_force,
        if_pos (show 1 + 1 = ([cA, cBg] : List Circle).length from rfl)]
      rfl
    rw [hval, hlpf]
    intro h
    have h1 := congrArg Prod.fst h
    simp only [assignJ, cA, cBg] at h1
    rw [hypot_val (0 - 3) (0 - 4) 5 (by norm_num) (by norm_num)] at h1
    norm_num at h1

end Circles
